import Mathlib

/-!
Verification development for the Tracecraft code-intelligence core.

Shallow embedding of:
* the SCIP ingestion pipeline (src/domain/scip_ingest.rs),
* the incremental SCIP cache (src/infrastructure/scip_cache.rs),
* the pluggable symbol stores (src/domain/store.rs).

The Rust pipeline runs its two passes in parallel (rayon + DashMap) with
first-writer-wins entry creation and per-entry synchronization; the
observable results checked here (node sets, callee-set membership,
dedup, final sort by id) are schedule-independent, so the passes are
modelled as sequential folds over the document list.  Machine integers
(i32) are modelled as Int; protobuf decoding and file I/O happen before
Pass 1 and are modelled by taking the already-decoded document list as
input.
-/

namespace Tracecraft

/-- SCIP occurrence as consumed by the ingestor: a symbol string, a raw
range (list of 3 or 4 integers) and a role bitmask (bit 0 = definition). -/
structure Occurrence where
  symbol : String
  range : List Int
  symbol_roles : Int
deriving DecidableEq, Repr

/-- A SCIP document: a relative path plus its ordered occurrence list. -/
structure Document where
  relative_path : String
  occurrences : List Occurrence
deriving DecidableEq, Repr

/-- Mirrors `struct SourceRange` in scip_ingest.rs. -/
structure SourceRange where
  start_line : Int
  start_col : Int
  end_line : Int
  end_col : Int
deriving DecidableEq, Repr

/-- Mirrors `SourceRange::contains`: checks whether `o` is fully contained
within `s`, with the same three early-false tests as the Rust code. -/
def SourceRange.contains (s o : SourceRange) : Bool :=
  if s.start_line > o.start_line ∨ s.end_line < o.end_line then false
  else if s.start_line = o.start_line ∧ s.start_col > o.start_col then false
  else if s.end_line = o.end_line ∧ s.end_col < o.end_col then false
  else true

/-- Mirrors `struct DefinitionInfo` in scip_ingest.rs. -/
structure DefinitionInfo where
  symbol : String
  range : SourceRange
deriving DecidableEq, Repr

/-- Mirrors `struct CallGraphNode` in callgraph.rs. -/
structure CallGraphNode where
  id : String
  callees : List String
  label : Option String
deriving DecidableEq, Repr

/-- Mirrors `struct CallGraph` in callgraph.rs. -/
structure CallGraph where
  nodes : List CallGraphNode
deriving DecidableEq, Repr

/-- Mirrors `parse_scip_range`: 3 elements = single-line range, 4 elements =
multi-line range, anything else normalizes to the zero range. -/
def parse_scip_range (range : List Int) : SourceRange :=
  match range with
  | [a, b, c] => { start_line := a, start_col := b, end_line := a, end_col := c }
  | [a, b, c, d] => { start_line := a, start_col := b, end_line := c, end_col := d }
  | _ => { start_line := 0, start_col := 0, end_line := 0, end_col := 0 }

/-- Rust's `split(' ')` on a character list: consecutive separators yield
empty segments, the empty string yields one empty segment. -/
def splitOnSpace : List Char → List (List Char)
  | [] => [[]]
  | c :: cs =>
      let r := splitOnSpace cs
      if c = ' ' then [] :: r
      else
        match r with
        | [] => [[c]]
        | h :: t => (c :: h) :: t

/-- Rust's `trim_end_matches` for the label punctuation set. -/
def trimTrailingMarks (cs : List Char) : List Char :=
  (cs.reverse.dropWhile (fun c => c == '(' || c == ')' || c == '.' || c == '#')).reverse

/-- Rust's `replace('/', "::")` on a character list. -/
def replaceSlash : List Char → List Char
  | [] => []
  | c :: cs => if c = '/' then ':' :: ':' :: replaceSlash cs else c :: replaceSlash cs

/-- Mirrors `extract_label_from_symbol`: last space-separated segment,
trailing `(`, `)`, `.`, `#` stripped, `/` replaced by `::` (string
primitives spelled out on character lists so that terms evaluate). -/
def extract_label_from_symbol (symbol : String) : String :=
  match (splitOnSpace symbol.data).getLast? with
  | some last => String.mk (replaceSlash (trimTrailingMarks last))
  | none => symbol

/-- Rust `occurrence.symbol_roles & 1 != 0` (low-bit test on i32); on
two's-complement integers this is exactly `symbol_roles % 2 ≠ 0` with
Lean's nonnegative Int.emod. -/
def is_definition (occ : Occurrence) : Bool :=
  occ.symbol_roles % 2 ≠ 0

/-- The sort key used by Pass 1's comparator:
`(end_line - start_line) * 1000 + (end_col - start_col)`. -/
def defSize (d : DefinitionInfo) : Int :=
  (d.range.end_line - d.range.start_line) * 1000 + (d.range.end_col - d.range.start_col)

/-- The comparator relation of Pass 1's `sort_by` (descending size):
`a` may precede `b` when `a`'s size is at least `b`'s. -/
def defSizeGE (a b : DefinitionInfo) : Prop := defSize b ≤ defSize a

instance : DecidableRel defSizeGE :=
  fun a b => inferInstanceAs (Decidable (defSize b ≤ defSize a))

instance : IsTotal DefinitionInfo defSizeGE :=
  ⟨fun a b => le_total (defSize b) (defSize a)⟩

instance : IsTrans DefinitionInfo defSizeGE :=
  ⟨fun _ _ _ hab hbc => le_trans hbc hab⟩

/-- Rust's stable `sort_by` with the descending-size comparator, modelled by
the stable insertion sort over `defSizeGE`. -/
def sortDefsDesc (defs : List DefinitionInfo) : List DefinitionInfo :=
  List.insertionSort defSizeGE defs

/-- The `symbol_to_node` lookup: index of the first node whose id is the
given symbol (node ids are positions in creation order). -/
def findNodeIdx : List CallGraphNode → String → Option Nat
  | [], _ => none
  | n :: ns, s => if n.id = s then some 0 else (findNodeIdx ns s).map (· + 1)

/-- Pass 1's atomic get-or-create on `symbol_to_node` / `node_data`:
first-writer-wins, a later sighting of a known symbol reuses the node. -/
def ensureNode (nodes : List CallGraphNode) (sym : String) : List CallGraphNode :=
  match findNodeIdx nodes sym with
  | some _ => nodes
  | none =>
      nodes ++ [{ id := sym, callees := [], label := some (extract_label_from_symbol sym) }]

/-- Pass 1, one occurrence: register a node and record the definition when
the occurrence is a definition with a non-empty symbol. -/
def pass1Occ (acc : List CallGraphNode × List DefinitionInfo) (occ : Occurrence) :
    List CallGraphNode × List DefinitionInfo :=
  if is_definition occ ∧ occ.symbol ≠ "" then
    (ensureNode acc.1 occ.symbol,
      acc.2 ++ [{ symbol := occ.symbol, range := parse_scip_range occ.range }])
  else acc

/-- Pass 1, one document: scan occurrences, then sort the local definitions
list largest-first. -/
def pass1Doc (nodes : List CallGraphNode) (doc : Document) :
    List CallGraphNode × List DefinitionInfo :=
  let p := doc.occurrences.foldl pass1Occ (nodes, [])
  (p.1, sortDefsDesc p.2)

/-- Pass 1, one document's effect on the global state: thread the node list
through `pass1Doc` and insert the sorted definitions under the document's
relative path (a later document with the same path overwrites, as with
DashMap insert). -/
def pass1Step (acc : List CallGraphNode × (String → List DefinitionInfo)) (doc : Document) :
    List CallGraphNode × (String → List DefinitionInfo) :=
  ((pass1Doc acc.1 doc).1,
    fun path => if path = doc.relative_path then (pass1Doc acc.1 doc).2 else acc.2 path)

/-- Pass 1 over the whole index: accumulates the node list (creation order)
and `definitions_by_file`. -/
def pass1 (docs : List Document) :
    List CallGraphNode × (String → List DefinitionInfo) :=
  docs.foldl pass1Step ([], fun _ => [])

/-- Pass 2's inner scan with `break`: the first definition, in sorted order,
whose range contains the reference range. -/
def findCaller (defs : List DefinitionInfo) (refRange : SourceRange) : Option DefinitionInfo :=
  defs.find? (fun d => d.range.contains refRange)

/-- Replace list element `i` by `f` of it (the `node_data.get_mut` update). -/
def modifyAt : List CallGraphNode → Nat → (CallGraphNode → CallGraphNode) → List CallGraphNode
  | [], _, _ => []
  | x :: xs, 0, f => f x :: xs
  | x :: xs, i + 1, f => x :: modifyAt xs i f

/-- Edge recording in Pass 2: look the caller up in `symbol_to_node`,
suppress self-references, push the callee unless already present. -/
def addEdge (nodes : List CallGraphNode) (caller callee : String) : List CallGraphNode :=
  match findNodeIdx nodes caller with
  | some i =>
      if caller ≠ callee then
        modifyAt nodes i (fun n =>
          if callee ∈ n.callees then n else { n with callees := n.callees ++ [callee] })
      else nodes
  | none => nodes

/-- Pass 2, one occurrence: resolve a non-definition occurrence with a
non-empty symbol against the document's sorted definitions. -/
def pass2Occ (defs : List DefinitionInfo) (nodes : List CallGraphNode) (occ : Occurrence) :
    List CallGraphNode :=
  if ¬ is_definition occ ∧ occ.symbol ≠ "" then
    match findCaller defs (parse_scip_range occ.range) with
    | some d => addEdge nodes d.symbol occ.symbol
    | none => nodes
  else nodes

/-- Pass 2, one document. -/
def pass2Doc (defsByFile : String → List DefinitionInfo) (nodes : List CallGraphNode)
    (doc : Document) : List CallGraphNode :=
  doc.occurrences.foldl (pass2Occ (defsByFile doc.relative_path)) nodes

/-- Lexicographic less-or-equal on character lists; Rust's `str::cmp`
compares UTF-8 bytes, which orders strings exactly by code points. -/
def charListLe : List Char → List Char → Bool
  | [], _ => true
  | _ :: _, [] => false
  | a :: as, b :: bs => if a < b then true else if b < a then false else charListLe as bs

/-- `a.cmp(&b) != Greater` for Rust strings. -/
def strLe (a b : String) : Bool := charListLe a.data b.data

/-- The finalization comparator: ascending node id. -/
def nodeIdLE (a b : CallGraphNode) : Prop := strLe a.id b.id = true

instance : DecidableRel nodeIdLE :=
  fun a b => inferInstanceAs (Decidable (strLe a.id b.id = true))

/-- Finalization's stable `sort_by` on ids. -/
def sortNodesById (nodes : List CallGraphNode) : List CallGraphNode :=
  List.insertionSort nodeIdLE nodes

/-- `ScipIngestor::ingest_and_build_graph` after protobuf decoding: Pass 1,
Pass 2, then sort nodes by id. -/
def ingest_and_build_graph (documents : List Document) : CallGraph :=
  { nodes := sortNodesById
      (documents.foldl (pass2Doc (pass1 documents).2) (pass1 documents).1) }

/-- The id projection of a node list (the keys of `symbol_to_node`). -/
def nodeIds (l : List CallGraphNode) : List String := l.map (fun n => n.id)

/-- The per-node invariant of C2: no self-edge, no duplicate callee. -/
def NodeInv (n : CallGraphNode) : Prop := n.id ∉ n.callees ∧ n.callees.Nodup

/-! ## SCIP cache (src/infrastructure/scip_cache.rs)

The cache is a pure function of filesystem facts, so the filesystem slice
it reads is made an explicit state: whether the index artifact exists, the
parse outcome of the metadata sidecar, the per-path mtime lookup and the
Cargo.lock bytes.  Filesystem reads that the code downgrades to a negative
answer (missing file, unreadable metadata) are the `none` cases; writes and
deletes are assumed to succeed, as the claims speak about the state after a
successful call. -/

/-- Mirrors `struct ScipCacheMetadata` (HashMap modelled as an association
list of path/mtime pairs). -/
structure ScipCacheMetadata where
  version : Nat
  created_at : Nat
  source_files : List (String × Nat)
  cargo_lock_hash : Option String
deriving DecidableEq, Repr

/-- `ScipCacheMetadata::CURRENT_VERSION`. -/
def CURRENT_VERSION : Nat := 1

/-- The filesystem slice one `ScipCache` reads and writes.
`meta = none`: sidecar absent; `meta = some none`: present but
`load_metadata` fails; `meta = some (some m)`: parses as `m`.
`mtime p = none`: `fs::metadata(p)` (or its mtime) fails. -/
structure CacheFs where
  indexExists : Bool
  meta : Option (Option ScipCacheMetadata)
  mtime : String → Option Nat
  cargoLock : Option (List Nat)

/-- The fixed index artifact path inside one workspace
(`workspace_root.join("index.scip")`). -/
def scip_index_path : String := "index.scip"

/-- Lower-case hex rendering of `n`, zero-padded to width `w`
(Rust's 02x / 08x format specifiers). -/
def hexPad (w n : Nat) : String :=
  let ds := Nat.toDigits 16 n
  String.mk (List.replicate (w - ds.length) '0' ++ ds)

/-- Mirrors `compute_cargo_lock_hash`: `None` when Cargo.lock is absent or
unreadable, otherwise first byte, last byte and byte length formatted as
02x 02x 08x. -/
def compute_cargo_lock_hash (fs : CacheFs) : Option String :=
  match fs.cargoLock with
  | none => none
  | some contents =>
      let len := contents.length
      let first := (contents.head?).getD 0
      let last := (contents.getLast?).getD 0
      some (hexPad 2 first ++ hexPad 2 last ++ hexPad 8 len)

/-- Mirrors `validate_source_files`: every recorded path must still resolve
to a mtime equal to the recorded one; a lookup failure invalidates. -/
def validate_source_files (fs : CacheFs) (meta : ScipCacheMetadata) : Bool :=
  meta.source_files.all (fun pt => fs.mtime pt.1 == some pt.2)

/-- Mirrors `validate_cargo_lock`: recomputed fingerprint must equal the
recorded one (two `None`s also match). -/
def validate_cargo_lock (fs : CacheFs) (meta : ScipCacheMetadata) : Bool :=
  compute_cargo_lock_hash fs == meta.cargo_lock_hash

/-- Mirrors `ScipCache::get_valid_cache`: existence of both artifacts,
metadata load, version check, source-file validation, lockfile
validation, in the code's order. -/
def get_valid_cache (fs : CacheFs) : Option String :=
  if fs.indexExists = false ∨ fs.meta.isNone then none
  else
    match fs.meta with
    | none => none
    | some none => none
    | some (some meta) =>
        if meta.version ≠ CURRENT_VERSION then none
        else if validate_source_files fs meta = false then none
        else if validate_cargo_lock fs meta = false then none
        else some scip_index_path

/-- Mirrors `ScipCache::update_metadata`: snapshot the mtimes of the given
files (a file whose mtime lookup fails is skipped), snapshot the lockfile
fingerprint, and overwrite the sidecar. `now` stands for the wall clock
read for `created_at`. -/
def update_metadata (fs : CacheFs) (source_files : List String) (now : Nat) : CacheFs :=
  let file_times := source_files.filterMap (fun f => (fs.mtime f).map (fun t => (f, t)))
  { fs with
    meta := some (some
      { version := CURRENT_VERSION
        created_at := now
        source_files := file_times
        cargo_lock_hash := compute_cargo_lock_hash fs }) }

/-- Mirrors `ScipCache::invalidate`: remove whichever artifacts exist. -/
def invalidate (fs : CacheFs) : CacheFs :=
  { fs with indexExists := false, meta := none }

/-- Point update of the mtime view: the filesystem after the file at `f`
was touched, rewritten or deleted. -/
def setMtime (fs : CacheFs) (f : String) (v : Option Nat) : CacheFs :=
  { fs with mtime := fun p => if p = f then v else fs.mtime p }

/-! ## Symbol stores (src/domain/store.rs)

DashMaps and sled trees are modelled as maps from keys to optional values;
bincode (de)serialization is modelled as the identity round-trip, and the
sled/serde failures the code downgrades to a negative answer have no
counterpart in the pure model. -/

/-- Mirrors `struct FunctionSignature` in index.rs. -/
structure FunctionSignature where
  name : String
  is_public : Bool
  receiver : Option String
  location : String
  crate_name : String
deriving DecidableEq, Repr

/-- Mirrors `struct MemorySymbolStore` (DashMaps as maps; an absent
`method_lookup` entry is `none`, matching `DashMap::get`). -/
structure MemorySymbolStore where
  global_functions : String → Option FunctionSignature
  type_methods : String × String → Option FunctionSignature
  method_lookup : String → Option (List String)

namespace MemorySymbolStore

/-- `MemorySymbolStore::default()`. -/
def default : MemorySymbolStore :=
  { global_functions := fun _ => none
    type_methods := fun _ => none
    method_lookup := fun _ => none }

def insert_function (st : MemorySymbolStore) (key : String) (sig : FunctionSignature) :
    MemorySymbolStore :=
  { st with global_functions := fun k => if k = key then some sig else st.global_functions k }

def insert_method (st : MemorySymbolStore) (type_name method_name : String)
    (sig : FunctionSignature) : MemorySymbolStore :=
  { st with type_methods := fun p =>
      if p = (type_name, method_name) then some sig else st.type_methods p }

def get_function (st : MemorySymbolStore) (key : String) : Option FunctionSignature :=
  st.global_functions key

def get_method (st : MemorySymbolStore) (type_name method_name : String) :
    Option FunctionSignature :=
  st.type_methods (type_name, method_name)

def find_methods_by_name (st : MemorySymbolStore) (method_name : String) :
    List FunctionSignature :=
  match st.method_lookup method_name with
  | some type_names => type_names.filterMap (fun tn => st.get_method tn method_name)
  | none => []

/-- `entry(method_name).or_default().push(type_name)`: no dedup here. -/
def register_method_lookup (st : MemorySymbolStore) (method_name type_name : String) :
    MemorySymbolStore :=
  { st with method_lookup := fun k =>
      if k = method_name then some ((st.method_lookup method_name).getD [] ++ [type_name])
      else st.method_lookup k }

end MemorySymbolStore

/-- Mirrors `struct DiskSymbolStore`: the three sled trees, keyed by the
strings the code uses as byte keys. -/
structure DiskSymbolStore where
  functions_tree : String → Option FunctionSignature
  methods_tree : String → Option FunctionSignature
  lookup_tree : String → Option (List String)

namespace DiskSymbolStore

/-- A freshly opened store: all trees empty. -/
def empty : DiskSymbolStore :=
  { functions_tree := fun _ => none
    methods_tree := fun _ => none
    lookup_tree := fun _ => none }

/-- `DiskSymbolStore::method_key`. -/
def method_key (type_name method_name : String) : String :=
  type_name ++ "::" ++ method_name

def insert_function (st : DiskSymbolStore) (key : String) (sig : FunctionSignature) :
    DiskSymbolStore :=
  { st with functions_tree := fun k => if k = key then some sig else st.functions_tree k }

def insert_method (st : DiskSymbolStore) (type_name method_name : String)
    (sig : FunctionSignature) : DiskSymbolStore :=
  { st with methods_tree := fun k =>
      if k = method_key type_name method_name then some sig else st.methods_tree k }

def get_function (st : DiskSymbolStore) (key : String) : Option FunctionSignature :=
  st.functions_tree key

def get_method (st : DiskSymbolStore) (type_name method_name : String) :
    Option FunctionSignature :=
  st.methods_tree (method_key type_name method_name)

/-- An absent lookup entry yields the empty candidate list
(`unwrap_or_default`). -/
def find_methods_by_name (st : DiskSymbolStore) (method_name : String) :
    List FunctionSignature :=
  ((st.lookup_tree method_name).getD []).filterMap (fun tn => st.get_method tn method_name)

/-- Read-modify-write with a containment check: the disk variant dedups the
type-name list. -/
def register_method_lookup (st : DiskSymbolStore) (method_name type_name : String) :
    DiskSymbolStore :=
  let type_names := (st.lookup_tree method_name).getD []
  if type_name ∈ type_names then st
  else
    { st with lookup_tree := fun k =>
        if k = method_name then some (type_names ++ [type_name]) else st.lookup_tree k }

end DiskSymbolStore

/-- A call against the `SymbolStore` trait's mutating operations, used to
quantify over every sequence of store operations. -/
inductive StoreOp where
  | insertFunction (key : String) (sig : FunctionSignature)
  | insertMethod (type_name method_name : String) (sig : FunctionSignature)
  | registerMethodLookup (method_name type_name : String)
deriving DecidableEq, Repr

/-- One trait call on the memory backend. -/
def MemorySymbolStore.apply (st : MemorySymbolStore) : StoreOp → MemorySymbolStore
  | .insertFunction k s => st.insert_function k s
  | .insertMethod t m s => st.insert_method t m s
  | .registerMethodLookup m t => st.register_method_lookup m t

/-- One trait call on the disk backend. -/
def DiskSymbolStore.apply (st : DiskSymbolStore) : StoreOp → DiskSymbolStore
  | .insertFunction k s => st.insert_function k s
  | .insertMethod t m s => st.insert_method t m s
  | .registerMethodLookup m t => st.register_method_lookup m t

/-- The memory store after a sequence of trait calls from a fresh store. -/
def runMem (ops : List StoreOp) : MemorySymbolStore :=
  ops.foldl MemorySymbolStore.apply MemorySymbolStore.default

/-- The disk store after a sequence of trait calls from a fresh store. -/
def runDisk (ops : List StoreOp) : DiskSymbolStore :=
  ops.foldl DiskSymbolStore.apply DiskSymbolStore.empty

/-! ## Concrete instances used by counterexamples and witnesses -/

/-- Filesystem state for the C4 counterexample: the source file exists and
is never touched, but no index artifact was ever generated. -/
def c4CexFs : CacheFs :=
  { indexExists := false, meta := none, mtime := fun _ => some 100, cargoLock := none }

/-- Filesystem state for the C4 witness. -/
def c4WitFs : CacheFs :=
  { indexExists := true, meta := none, mtime := fun _ => some 7, cargoLock := some [10, 20, 30] }

/-- Filesystem state for the C10 witness: `gone.rs` is unreadable at
snapshot time, `a.rs` reads mtime 5. -/
def c10WitFs : CacheFs :=
  { indexExists := true,
    meta := none,
    mtime := fun p => if p = "gone.rs" then none else some 5,
    cargoLock := none }

/-- The metadata `update_metadata` writes in the C10 witness scenario. -/
def c10WitMeta : ScipCacheMetadata :=
  { version := CURRENT_VERSION, created_at := 9,
    source_files := [("a.rs", 5)], cargo_lock_hash := none }

/-- The signature used by the C5 witness (the one from store.rs's tests). -/
def c5Sig : FunctionSignature :=
  { name := "bar", is_public := true, receiver := some "&self",
    location := "test.rs:1", crate_name := "test_crate" }

/-- The operation history used by the C5 witness. -/
def c5Ops : List StoreOp :=
  [.registerMethodLookup "bar" "MyType", .insertMethod "MyType" "bar" c5Sig]

/-- The outer definition of the C1 counterexample: lines 0–1. -/
def c1OutDef : DefinitionInfo := { symbol := "out", range := parse_scip_range [0, 0, 1, 0] }

/-- The inner definition of the C1 counterexample: one line, columns
500–1600, so its size metric 1100 beats the outer's 1000. -/
def c1InnDef : DefinitionInfo := { symbol := "inn", range := parse_scip_range [0, 500, 1600] }

/-- The C1 counterexample document: both definitions plus a reference at
line 0, columns 600–700, contained in both ranges. -/
def c1Doc : Document :=
  { relative_path := "f.rs",
    occurrences :=
      [{ symbol := "out", range := [0, 0, 1, 0], symbol_roles := 1 },
       { symbol := "inn", range := [0, 500, 1600], symbol_roles := 1 },
       { symbol := "callee", range := [0, 600, 700], symbol_roles := 0 }] }

/-- The outer definition of the C1 witness: lines 0–2, size 2000. -/
def c1WOut : DefinitionInfo := { symbol := "outer", range := parse_scip_range [0, 0, 2, 0] }

/-- The inner definition of the C1 witness: line 1, columns 0–50, size 50. -/
def c1WInn : DefinitionInfo := { symbol := "inner", range := parse_scip_range [1, 0, 1, 50] }

/-- The C2 witness document: one definition, a repeated reference to the
same callee inside it, and a self-reference inside its own range. -/
def c2Doc : Document :=
  { relative_path := "g.rs",
    occurrences :=
      [{ symbol := "D1", range := [10, 0, 20, 0], symbol_roles := 1 },
       { symbol := "T", range := [15, 2, 5], symbol_roles := 0 },
       { symbol := "T", range := [16, 2, 5], symbol_roles := 0 },
       { symbol := "D1", range := [17, 2, 5], symbol_roles := 0 }] }

/-! ## Helper lemmas -/

theorem charListLe_total (x y : List Char) : charListLe x y = true ∨ charListLe y x = true := by
  induction x generalizing y with
  | nil => exact Or.inl rfl
  | cons a as ih =>
      cases y with
      | nil => exact Or.inr rfl
      | cons b bs =>
          by_cases hab : a < b
          · exact Or.inl (by simp [charListLe, hab])
          · by_cases hba : b < a
            · exact Or.inr (by simp [charListLe, hba])
            · rcases ih bs with h | h
              · exact Or.inl (by simp [charListLe, hab, hba, h])
              · exact Or.inr (by simp [charListLe, hab, hba, h])

theorem charListLe_trans {x y z : List Char} (hxy : charListLe x y = true)
    (hyz : charListLe y z = true) : charListLe x z = true := by
  induction x generalizing y z with
  | nil => rfl
  | cons a as ih =>
      cases y with
      | nil => simp [charListLe] at hxy
      | cons b bs =>
          cases z with
          | nil => simp [charListLe] at hyz
          | cons c cs =>
              simp only [charListLe] at hxy hyz ⊢
              by_cases hab : a < b
              · by_cases hbc : b < c
                · simp [lt_trans hab hbc]
                · by_cases hcb : c < b
                  · simp [hbc, hcb] at hyz
                  · have : b = c := le_antisymm (not_lt.mp hcb) (not_lt.mp hbc)
                    subst this
                    simp [hab]
              · by_cases hba : b < a
                · simp [hab, hba] at hxy
                · have hba2 : a = b := le_antisymm (not_lt.mp hba) (not_lt.mp hab)
                  subst hba2
                  simp only [if_neg hab] at hxy
                  by_cases hbc : a < c
                  · simp [hbc]
                  · by_cases hcb : c < a
                    · simp [hbc, hcb] at hyz
                    · simp only [if_neg hbc, if_neg hcb] at hyz ⊢
                      exact ih hxy hyz

instance : IsTotal CallGraphNode nodeIdLE :=
  ⟨fun a b => charListLe_total a.id.data b.id.data⟩

instance : IsTrans CallGraphNode nodeIdLE :=
  ⟨fun _ _ _ hab hbc => charListLe_trans hab hbc⟩


/-- `validate_source_files` succeeds exactly when every recorded path still
has its recorded mtime. -/
theorem validate_source_files_eq_true_iff (fs : CacheFs) (m : ScipCacheMetadata) :
    validate_source_files fs m = true ↔
      ∀ p t, (p, t) ∈ m.source_files → fs.mtime p = some t := by
  unfold validate_source_files
  rw [List.all_eq_true]
  constructor
  · intro h p t hpt
    simpa using h (p, t) hpt
  · rintro h ⟨p, t⟩ hpt
    simpa using h p t hpt

/-! ## Claim theorems -/

/-- C7: `SourceRange::contains(outer, inner)` holds iff inner's start is not
before outer's start and inner's end is not after outer's end, comparing
positions lexicographically by (line, col); containment is reflexive. -/
theorem contains_iff_lex_and_refl :
    (∀ outer inner : SourceRange,
      outer.contains inner = true ↔
        ((outer.start_line < inner.start_line ∨
            (outer.start_line = inner.start_line ∧ outer.start_col ≤ inner.start_col)) ∧
         (inner.end_line < outer.end_line ∨
            (inner.end_line = outer.end_line ∧ inner.end_col ≤ outer.end_col)))) ∧
    (∀ r : SourceRange, r.contains r = true) := by
  constructor
  · intro outer inner
    simp only [SourceRange.contains]
    split_ifs with h1 h2 h3 <;> simp <;> omega
  · intro r
    simp only [SourceRange.contains]
    split_ifs with h1 h2 h3 <;> first | rfl | (exfalso; omega)

/-- C9: after `invalidate()` both artifacts are absent, `get_valid_cache()`
returns none, and a second `invalidate()` changes nothing (idempotence;
the deletes are guarded by existence checks, so an absent artifact is
skipped rather than an error). -/
theorem invalidate_terminal_and_idempotent (fs : CacheFs) :
    (invalidate fs).indexExists = false ∧ (invalidate fs).meta = none ∧
    get_valid_cache (invalidate fs) = none ∧ invalidate (invalidate fs) = invalidate fs := by
  refine ⟨rfl, rfl, ?_, rfl⟩
  simp [get_valid_cache, invalidate]

/-- C6: a reference occurrence contained in no definition range of its
document is dropped silently by Pass 2 — the per-occurrence step leaves the
node list (hence every callee list) unchanged, and the step is total, so no
error is raised. -/
theorem uncontained_ref_adds_no_edge (defs : List DefinitionInfo) (nodes : List CallGraphNode)
    (occ : Occurrence)
    (h : ∀ d ∈ defs, d.range.contains (parse_scip_range occ.range) = false) :
    pass2Occ defs nodes occ = nodes := by
  by_cases hc : (¬ is_definition occ ∧ occ.symbol ≠ "")
  · have hf : findCaller defs (parse_scip_range occ.range) = none :=
      List.find?_eq_none.mpr (fun d hd => by simp [h d hd])
    unfold pass2Occ
    rw [if_pos hc, hf]
  · unfold pass2Occ
    rw [if_neg hc]

/-- C6 witness: the spec's boundary example — the only definition spans
lines 10–20, the reference sits at line 5, nothing is recorded. -/
theorem uncontained_ref_adds_no_edge_witness :
    pass2Occ [{ symbol := "D1", range := parse_scip_range [10, 0, 20, 0] }] []
      { symbol := "T", range := [5, 0, 3], symbol_roles := 0 } = [] :=
  uncontained_ref_adds_no_edge _ _ _ (by decide)

/-- Characterization of a cache hit, shared by several claims below. -/
theorem get_valid_cache_characterization (fs : CacheFs) :
    get_valid_cache fs = some scip_index_path ↔
      fs.indexExists = true ∧
      ∃ m : ScipCacheMetadata, fs.meta = some (some m) ∧
        m.version = CURRENT_VERSION ∧
        (∀ p t, (p, t) ∈ m.source_files → fs.mtime p = some t) ∧
        compute_cargo_lock_hash fs = m.cargo_lock_hash := by
  cases hmeta : fs.meta with
  | none =>
      simp [get_valid_cache, hmeta]
  | some mo =>
      cases mo with
      | none =>
          simp [get_valid_cache, hmeta]
      | some m =>
          cases hidx : fs.indexExists with
          | false => simp [get_valid_cache, hmeta, hidx]
          | true =>
              by_cases hver : m.version = CURRENT_VERSION
              · cases hvsf : validate_source_files fs m with
                | false =>
                    have hlhs : get_valid_cache fs = none := by
                      simp [get_valid_cache, hmeta, hidx, hver, hvsf]
                    rw [hlhs]
                    apply iff_of_false (by simp)
                    rintro ⟨_, m2, hm2, _, hall2, _⟩
                    simp only [Option.some.injEq] at hm2
                    subst hm2
                    have htrue := (validate_source_files_eq_true_iff fs m).mpr hall2
                    simp [hvsf] at htrue
                | true =>
                    cases hvcl : validate_cargo_lock fs m with
                    | false =>
                        have hlhs : get_valid_cache fs = none := by
                          simp [get_valid_cache, hmeta, hidx, hver, hvsf, hvcl]
                        rw [hlhs]
                        apply iff_of_false (by simp)
                        rintro ⟨_, m2, hm2, _, _, hcl2⟩
                        simp only [Option.some.injEq] at hm2
                        subst hm2
                        rw [validate_cargo_lock, hcl2, beq_self_eq_true] at hvcl
                        exact Bool.true_eq_false.mp hvcl
                    | true =>
                        have hlhs : get_valid_cache fs = some scip_index_path := by
                          simp [get_valid_cache, hmeta, hidx, hver, hvsf, hvcl]
                        rw [hlhs]
                        refine iff_of_true rfl ⟨rfl, m, rfl, hver, ?_, ?_⟩
                        · exact (validate_source_files_eq_true_iff fs m).mp hvsf
                        · rw [validate_cargo_lock, beq_iff_eq] at hvcl
                          exact hvcl
              · have hlhs : get_valid_cache fs = none := by
                  simp [get_valid_cache, hmeta, hidx, hver]
                rw [hlhs]
                apply iff_of_false (by simp)
                rintro ⟨_, m2, hm2, hver2, _, _⟩
                simp only [Option.some.injEq] at hm2
                subst hm2
                exact hver hver2

/-- C3: `get_valid_cache` returns the cached index path iff the index
artifact exists, the sidecar exists and parses, its version is the current
constant, every recorded source file still has exactly its recorded mtime,
and the recomputed Cargo.lock fingerprint equals the recorded one. -/
theorem get_valid_cache_iff (fs : CacheFs) :
    get_valid_cache fs = some scip_index_path ↔
      fs.indexExists = true ∧
      ∃ m : ScipCacheMetadata, fs.meta = some (some m) ∧
        m.version = CURRENT_VERSION ∧
        (∀ p t, (p, t) ∈ m.source_files → fs.mtime p = some t) ∧
        compute_cargo_lock_hash fs = m.cargo_lock_hash :=
  get_valid_cache_characterization fs

/-- `get_valid_cache` never returns any path other than the index path. -/
theorem get_valid_cache_none_or_path (fs : CacheFs) :
    get_valid_cache fs = none ∨ get_valid_cache fs = some scip_index_path := by
  unfold get_valid_cache
  split
  · exact Or.inl rfl
  · split
    · exact Or.inl rfl
    · exact Or.inl rfl
    · split_ifs <;> simp

/-- Changing the file at `f` cannot change source-file validation against a
metadata record that tracks no path equal to `f`. -/
theorem validate_source_files_setMtime (fs2 : CacheFs) (f : String) (v : Option Nat)
    (m : ScipCacheMetadata) (hall : m.source_files.all (fun pt => pt.1 != f) = true) :
    validate_source_files (setMtime fs2 f v) m = validate_source_files fs2 m := by
  unfold validate_source_files
  suffices h : ∀ sf : List (String × Nat), sf.all (fun pt => pt.1 != f) = true →
      sf.all (fun pt => (setMtime fs2 f v).mtime pt.1 == some pt.2) =
        sf.all (fun pt => fs2.mtime pt.1 == some pt.2) by
    exact h m.source_files hall
  intro sf hsf
  induction sf with
  | nil => rfl
  | cons pt sf ih =>
      rw [List.all_cons, Bool.and_eq_true] at hsf
      obtain ⟨hne, hrest⟩ := hsf
      have hmt : (setMtime fs2 f v).mtime pt.1 = fs2.mtime pt.1 := by
        simp only [setMtime]
        rw [if_neg (by simpa [bne_iff_ne] using hne)]
      rw [List.all_cons, List.all_cons, hmt, ih hrest]

/-- C4 counterexample: with no index artifact on disk, `update_metadata([f])`
followed immediately by `get_valid_cache()` returns none even though `f` is
unchanged (its mtime still reads 100), refuting the claim as stated. -/
theorem cache_roundtrip_counterexample :
    (update_metadata c4CexFs ["src/main.rs"] 5).mtime "src/main.rs" = some 100 ∧
    get_valid_cache (update_metadata c4CexFs ["src/main.rs"] 5) = none := by
  constructor
  · rfl
  · decide

/-- C4 (amended): provided the index artifact exists and `f`'s mtime is
readable at snapshot time, `update_metadata([f])` followed immediately by
`get_valid_cache()` (nothing else changed in between) returns the cached
index path; and if `f`'s recorded mtime then changes to any different value
(or `f` becomes unreadable), `get_valid_cache()` returns none. -/
theorem cache_roundtrip_amended (fs : CacheFs) (f : String) (t0 now : Nat)
    (hidx : fs.indexExists = true) (hf : fs.mtime f = some t0) :
    get_valid_cache (update_metadata fs [f] now) = some scip_index_path ∧
    ∀ v : Option Nat, v ≠ some t0 →
      get_valid_cache (setMtime (update_metadata fs [f] now) f v) = none := by
  have hu : (update_metadata fs [f] now).meta =
      some (some { version := CURRENT_VERSION, created_at := now,
                   source_files := [(f, t0)],
                   cargo_lock_hash := compute_cargo_lock_hash fs }) := by
    simp [update_metadata, hf]
  constructor
  · rw [get_valid_cache_characterization]
    refine ⟨hidx, _, hu, rfl, ?_, rfl⟩
    intro p t hpt
    simp only [List.mem_singleton, Prod.mk.injEq] at hpt
    obtain ⟨rfl, rfl⟩ := hpt
    exact hf
  · intro v hv
    rcases get_valid_cache_none_or_path (setMtime (update_metadata fs [f] now) f v) with h | h
    · exact h
    · exfalso
      obtain ⟨_, m2, hm2, _, hall2, _⟩ := (get_valid_cache_characterization _).mp h
      have hm2u : m2 = { version := CURRENT_VERSION, created_at := now,
                         source_files := [(f, t0)],
                         cargo_lock_hash := compute_cargo_lock_hash fs } := by
        have : (setMtime (update_metadata fs [f] now) f v).meta =
            (update_metadata fs [f] now).meta := rfl
        rw [this, hu] at hm2
        simpa using hm2.symm
      subst hm2u
      have := hall2 f t0 (by simp)
      have hmt : (setMtime (update_metadata fs [f] now) f v).mtime f = v := by
        simp [setMtime]
      rw [hmt] at this
      exact hv this

/-- C4 witness: the amended round-trip at a concrete state — a hit right
after the snapshot, a miss after any mtime change. -/
theorem cache_roundtrip_amended_witness :
    get_valid_cache (update_metadata c4WitFs ["a.rs"] 1) = some scip_index_path ∧
    ∀ v : Option Nat, v ≠ some 7 →
      get_valid_cache (setMtime (update_metadata c4WitFs ["a.rs"] 1) "a.rs" v) = none :=
  cache_roundtrip_amended c4WitFs "a.rs" 7 1 rfl rfl

/-- C10: a file whose mtime lookup fails at snapshot time is silently
omitted from the written sidecar (no error), so later validation — and the
hit/miss answer of `get_valid_cache` — never depends on that file. -/
theorem update_metadata_skips_unreadable (fs : CacheFs) (files : List String) (f : String)
    (now : Nat) (hf : fs.mtime f = none) (m : ScipCacheMetadata)
    (hm : (update_metadata fs files now).meta = some (some m))
    (fs2 : CacheFs) (v : Option Nat) :
    m.source_files.all (fun pt => pt.1 != f) = true ∧
    validate_source_files (setMtime fs2 f v) m = validate_source_files fs2 m ∧
    get_valid_cache (setMtime (update_metadata fs files now) f v) =
      get_valid_cache (update_metadata fs files now) := by
  have hmval : m = { version := CURRENT_VERSION, created_at := now,
                     source_files := files.filterMap
                       (fun g => (fs.mtime g).map (fun t => (g, t))),
                     cargo_lock_hash := compute_cargo_lock_hash fs } := by
    simp only [update_metadata, Option.some.injEq] at hm
    exact hm.symm
  have hall : m.source_files.all (fun pt => pt.1 != f) = true := by
    rw [hmval, List.all_eq_true]
    rintro ⟨p, t⟩ hpt
    rw [List.mem_filterMap] at hpt
    obtain ⟨g, hg, hgt⟩ := hpt
    cases hmg : fs.mtime g with
    | none => rw [hmg] at hgt; simp at hgt
    | some tg =>
        rw [hmg] at hgt
        simp at hgt
        obtain ⟨rfl, rfl⟩ := hgt
        simp only [bne_iff_ne, ne_eq]
        intro hgf
        rw [hgf, hf] at hmg
        cases hmg
  refine ⟨hall, validate_source_files_setMtime fs2 f v m hall, ?_⟩
  have hmeta2 : (setMtime (update_metadata fs files now) f v).meta = some (some m) := hm
  have hmtkeep : ∀ p t, (p, t) ∈ m.source_files →
      (setMtime (update_metadata fs files now) f v).mtime p =
        (update_metadata fs files now).mtime p := by
    intro p t hpt
    have hne : p ≠ f := by
      have := List.all_eq_true.mp hall (p, t) hpt
      simpa [bne_iff_ne] using this
    simp [setMtime, hne]
  rcases get_valid_cache_none_or_path (update_metadata fs files now) with h | h
  · rw [h]
    rcases get_valid_cache_none_or_path
        (setMtime (update_metadata fs files now) f v) with h2 | h2
    · exact h2
    · exfalso
      obtain ⟨hidx2, m2, hm2, hver2, hall2, hcl2⟩ := (get_valid_cache_characterization _).mp h2
      rw [hmeta2] at hm2
      simp only [Option.some.injEq] at hm2
      subst hm2
      have hu : get_valid_cache (update_metadata fs files now) = some scip_index_path := by
        rw [get_valid_cache_characterization]
        refine ⟨hidx2, m, hm, hver2, ?_, hcl2⟩
        intro p t hpt
        rw [← hmtkeep p t hpt]
        exact hall2 p t hpt
      rw [h] at hu
      cases hu
  · rw [h]
    obtain ⟨hidx2, m2, hm2, hver2, hall2, hcl2⟩ := (get_valid_cache_characterization _).mp h
    rw [hm] at hm2
    simp only [Option.some.injEq] at hm2
    subst hm2
    rw [get_valid_cache_characterization]
    refine ⟨hidx2, m, hmeta2, hver2, ?_, hcl2⟩
    intro p t hpt
    rw [hmtkeep p t hpt]
    exact hall2 p t hpt

/-- C10 witness: at a concrete state the unreadable file is omitted from the
sidecar and later changes to it never flip the validation verdict. -/
theorem update_metadata_skips_unreadable_witness :
    c10WitMeta.source_files.all (fun pt => pt.1 != "gone.rs") = true ∧
    validate_source_files (setMtime c10WitFs "gone.rs" (some 42)) c10WitMeta =
      validate_source_files c10WitFs c10WitMeta ∧
    get_valid_cache (setMtime (update_metadata c10WitFs ["a.rs", "gone.rs"] 9)
        "gone.rs" (some 42)) =
      get_valid_cache (update_metadata c10WitFs ["a.rs", "gone.rs"] 9) :=
  update_metadata_skips_unreadable c10WitFs ["a.rs", "gone.rs"] "gone.rs" 9 (by decide)
    c10WitMeta (by decide) c10WitFs (some 42)

/-- A key never inserted stays absent from the memory store's function map. -/
theorem runMem_get_function_none (ops : List StoreOp) (km : String)
    (st : MemorySymbolStore) (hst : st.global_functions km = none)
    (hk : ∀ s2 : FunctionSignature, StoreOp.insertFunction km s2 ∉ ops) :
    (ops.foldl MemorySymbolStore.apply st).global_functions km = none := by
  induction ops generalizing st with
  | nil => exact hst
  | cons op ops ih =>
      rw [List.foldl_cons]
      refine ih _ ?_ (fun s2 hmem => hk s2 (List.mem_cons_of_mem _ hmem))
      cases op with
      | insertFunction k s =>
          have hkk : km ≠ k := by
            intro h
            exact hk s (by rw [h]; exact List.mem_cons_self _ _)
          simp only [MemorySymbolStore.apply, MemorySymbolStore.insert_function]
          rw [if_neg hkk]
          exact hst
      | insertMethod t m s =>
          simpa [MemorySymbolStore.apply, MemorySymbolStore.insert_method] using hst
      | registerMethodLookup m t =>
          simpa [MemorySymbolStore.apply, MemorySymbolStore.register_method_lookup] using hst

/-- Membership in the memory store's lookup list equals having been
registered (on top of whatever the starting state already held). -/
theorem runMem_lookup_mem (ops : List StoreOp) (m tn : String) (st : MemorySymbolStore) :
    tn ∈ ((ops.foldl MemorySymbolStore.apply st).method_lookup m).getD [] ↔
      tn ∈ (st.method_lookup m).getD [] ∨ StoreOp.registerMethodLookup m tn ∈ ops := by
  induction ops generalizing st with
  | nil => simp
  | cons op ops ih =>
      rw [List.foldl_cons, ih, List.mem_cons]
      cases op with
      | insertFunction k s =>
          simp only [MemorySymbolStore.apply, MemorySymbolStore.insert_function]
          simp
      | insertMethod t m2 s =>
          simp only [MemorySymbolStore.apply, MemorySymbolStore.insert_method]
          simp
      | registerMethodLookup m2 t2 =>
          simp only [MemorySymbolStore.apply, MemorySymbolStore.register_method_lookup]
          by_cases hm : m = m2
          · subst hm
            simp only [StoreOp.registerMethodLookup.injEq]
            simp
            tauto
          · simp only [StoreOp.registerMethodLookup.injEq]
            simp [hm]

/-- Membership in the memory store's multi-candidate lookup result. -/
theorem memorystore_mem_find (st : MemorySymbolStore) (m : String) (s : FunctionSignature) :
    s ∈ st.find_methods_by_name m ↔
      ∃ tn, tn ∈ (st.method_lookup m).getD [] ∧ st.get_method tn m = some s := by
  unfold MemorySymbolStore.find_methods_by_name
  cases h : st.method_lookup m with
  | none => simp
  | some l => simp [List.mem_filterMap]

/-- A key never inserted stays absent from the disk store's functions tree. -/
theorem runDisk_get_function_none (ops : List StoreOp) (km : String)
    (st : DiskSymbolStore) (hst : st.functions_tree km = none)
    (hk : ∀ s2 : FunctionSignature, StoreOp.insertFunction km s2 ∉ ops) :
    (ops.foldl DiskSymbolStore.apply st).functions_tree km = none := by
  induction ops generalizing st with
  | nil => exact hst
  | cons op ops ih =>
      rw [List.foldl_cons]
      refine ih _ ?_ (fun s2 hmem => hk s2 (List.mem_cons_of_mem _ hmem))
      cases op with
      | insertFunction k s =>
          have hkk : km ≠ k := by
            intro h
            exact hk s (by rw [h]; exact List.mem_cons_self _ _)
          simp only [DiskSymbolStore.apply, DiskSymbolStore.insert_function]
          rw [if_neg hkk]
          exact hst
      | insertMethod t m s =>
          simpa [DiskSymbolStore.apply, DiskSymbolStore.insert_method] using hst
      | registerMethodLookup m t =>
          simp only [DiskSymbolStore.apply, DiskSymbolStore.register_method_lookup]
          split
          · exact hst
          · exact hst

/-- Membership in the disk store's lookup tree equals having been
registered; the read-modify-write dedup drops only duplicates. -/
theorem runDisk_lookup_mem (ops : List StoreOp) (m tn : String) (st : DiskSymbolStore) :
    tn ∈ ((ops.foldl DiskSymbolStore.apply st).lookup_tree m).getD [] ↔
      tn ∈ (st.lookup_tree m).getD [] ∨ StoreOp.registerMethodLookup m tn ∈ ops := by
  induction ops generalizing st with
  | nil => simp
  | cons op ops ih =>
      rw [List.foldl_cons, ih, List.mem_cons]
      cases op with
      | insertFunction k s =>
          simp only [DiskSymbolStore.apply, DiskSymbolStore.insert_function]
          simp
      | insertMethod t m2 s =>
          simp only [DiskSymbolStore.apply, DiskSymbolStore.insert_method]
          simp
      | registerMethodLookup m2 t2 =>
          simp only [DiskSymbolStore.apply, DiskSymbolStore.register_method_lookup]
          by_cases hdup : t2 ∈ (st.lookup_tree m2).getD []
          · rw [if_pos hdup]
            simp only [StoreOp.registerMethodLookup.injEq]
            constructor
            · rintro (h | h)
              · exact Or.inl h
              · exact Or.inr (Or.inr h)
            · rintro (h | ⟨h1, h2⟩ | h)
              · exact Or.inl h
              · subst h1; subst h2; exact Or.inl hdup
              · exact Or.inr h
          · rw [if_neg hdup]
            by_cases hm : m = m2
            · subst hm
              simp only [StoreOp.registerMethodLookup.injEq]
              simp
              tauto
            · simp only [StoreOp.registerMethodLookup.injEq]
              simp [hm]

/-- Membership in the disk store's multi-candidate lookup result. -/
theorem diskstore_mem_find (st : DiskSymbolStore) (m : String) (s : FunctionSignature) :
    s ∈ st.find_methods_by_name m ↔
      ∃ tn, tn ∈ (st.lookup_tree m).getD [] ∧ st.get_method tn m = some s := by
  unfold DiskSymbolStore.find_methods_by_name
  simp [List.mem_filterMap]

/-- `runMem`-level reading of the lookup characterization. -/
theorem runMem_lookup_mem_run (ops : List StoreOp) (m tn : String) :
    tn ∈ ((runMem ops).method_lookup m).getD [] ↔
      StoreOp.registerMethodLookup m tn ∈ ops := by
  unfold runMem
  rw [runMem_lookup_mem]
  simp [MemorySymbolStore.default]

/-- `runDisk`-level reading of the lookup characterization. -/
theorem runDisk_lookup_mem_run (ops : List StoreOp) (m tn : String) :
    tn ∈ ((runDisk ops).lookup_tree m).getD [] ↔
      StoreOp.registerMethodLookup m tn ∈ ops := by
  unfold runDisk
  rw [runDisk_lookup_mem]
  simp [DiskSymbolStore.empty]

/-- C5: store parity — for both backends, insert-then-get returns the
inserted signature, a never-inserted key reads as none, and
`find_methods_by_name` returns exactly the signatures reachable through a
matching `register_method_lookup` call (a set-level characterization, so it
is independent of insertion order). -/
theorem store_parity (memSt : MemorySymbolStore) (diskSt : DiskSymbolStore)
    (ops : List StoreOp) (k km m : String) (s sk : FunctionSignature)
    (hk : ∀ s2 : FunctionSignature, StoreOp.insertFunction km s2 ∉ ops) :
    (memSt.insert_function k sk).get_function k = some sk ∧
    (runMem ops).get_function km = none ∧
    (s ∈ (runMem ops).find_methods_by_name m ↔
      ∃ tn, StoreOp.registerMethodLookup m tn ∈ ops ∧
        (runMem ops).get_method tn m = some s) ∧
    (diskSt.insert_function k sk).get_function k = some sk ∧
    (runDisk ops).get_function km = none ∧
    (s ∈ (runDisk ops).find_methods_by_name m ↔
      ∃ tn, StoreOp.registerMethodLookup m tn ∈ ops ∧
        (runDisk ops).get_method tn m = some s) := by
  refine ⟨?_, ?_, ?_, ?_, ?_, ?_⟩
  · simp [MemorySymbolStore.insert_function, MemorySymbolStore.get_function]
  · exact runMem_get_function_none ops km MemorySymbolStore.default rfl hk
  · rw [memorystore_mem_find]
    constructor
    · rintro ⟨tn, htn, hget⟩
      rw [runMem_lookup_mem_run] at htn
      exact ⟨tn, htn, hget⟩
    · rintro ⟨tn, htn, hget⟩
      refine ⟨tn, ?_, hget⟩
      rw [runMem_lookup_mem_run]
      exact htn
  · simp [DiskSymbolStore.insert_function, DiskSymbolStore.get_function]
  · exact runDisk_get_function_none ops km DiskSymbolStore.empty rfl hk
  · rw [diskstore_mem_find]
    constructor
    · rintro ⟨tn, htn, hget⟩
      rw [runDisk_lookup_mem_run] at htn
      exact ⟨tn, htn, hget⟩
    · rintro ⟨tn, htn, hget⟩
      refine ⟨tn, ?_, hget⟩
      rw [runDisk_lookup_mem_run]
      exact htn

/-- C5 witness: store parity at a concrete history — one registered method,
one inserted function key, one never-inserted key. -/
theorem store_parity_witness :
    (MemorySymbolStore.default.insert_function "test::foo" c5Sig).get_function "test::foo" =
        some c5Sig ∧
    (runMem c5Ops).get_function "nonexistent" = none ∧
    (c5Sig ∈ (runMem c5Ops).find_methods_by_name "bar" ↔
      ∃ tn, StoreOp.registerMethodLookup "bar" tn ∈ c5Ops ∧
        (runMem c5Ops).get_method tn "bar" = some c5Sig) ∧
    (DiskSymbolStore.empty.insert_function "test::foo" c5Sig).get_function "test::foo" =
        some c5Sig ∧
    (runDisk c5Ops).get_function "nonexistent" = none ∧
    (c5Sig ∈ (runDisk c5Ops).find_methods_by_name "bar" ↔
      ∃ tn, StoreOp.registerMethodLookup "bar" tn ∈ c5Ops ∧
        (runDisk c5Ops).get_method tn "bar" = some c5Sig) :=
  store_parity MemorySymbolStore.default DiskSymbolStore.empty c5Ops
    "test::foo" "nonexistent" "bar" c5Sig c5Sig
    (by intro s2 h; simp [c5Ops] at h)

/-- In a size-descending sorted list, when all containing definitions are
among `d1` and `d2` and `d1`'s size metric is strictly larger, the first
containing definition is `d1`. -/
theorem find_first_of_two_containing (r : SourceRange) (d1 d2 : DefinitionInfo)
    (hc1 : d1.range.contains r = true) (hsize : defSize d2 < defSize d1) :
    ∀ l : List DefinitionInfo, l.Sorted defSizeGE → d1 ∈ l →
      (∀ d ∈ l, d.range.contains r = true → d = d1 ∨ d = d2) →
      l.find? (fun d => d.range.contains r) = some d1 := by
  intro l
  induction l with
  | nil => intro _ h1 _; cases h1
  | cons x xs ih =>
      intro hs h1 honly
      rw [List.sorted_cons] at hs
      obtain ⟨hx, hs2⟩ := hs
      by_cases hpx : x.range.contains r = true
      · have hfx : List.find? (fun d => d.range.contains r) (x :: xs) = some x := by
          simp [hpx]
        rw [hfx]
        rcases honly x (List.mem_cons_self _ _) hpx with h | h
        · rw [h]
        · exfalso
          have hne : d1 ≠ x := by
            intro he
            rw [he, h] at hsize
            exact lt_irrefl _ hsize
          have h1x : d1 ∈ xs := by
            rcases List.mem_cons.mp h1 with he | hm
            · exact absurd he hne
            · exact hm
          have := hx d1 h1x
          rw [h] at this
          exact absurd this (not_le.mpr hsize)
      · have hfx : List.find? (fun d => d.range.contains r) (x :: xs) =
            List.find? (fun d => d.range.contains r) xs := by
          simp [hpx]
        rw [hfx]
        have h1x : d1 ∈ xs := by
          rcases List.mem_cons.mp h1 with he | hm
          · rw [he] at hc1; exact absurd hc1 hpx
          · exact hm
        exact ih hs2 h1x (fun d hd hc => honly d (List.mem_cons_of_mem _ hd) hc)

/-- C1 counterexample: the outer definition's range strictly contains the
inner one's and both contain the reference, yet the resolved caller is the
inner definition (whose column span pushes its size metric above the
outer's), and the ingested graph records the edge on the inner node while
the outer node stays empty — so the larger (outer) range is not the
resolved caller. -/
theorem sort_outer_first_counterexample :
    c1OutDef.range.contains c1InnDef.range = true ∧
    c1InnDef.range.contains c1OutDef.range = false ∧
    c1OutDef.range.contains (parse_scip_range [0, 600, 700]) = true ∧
    c1InnDef.range.contains (parse_scip_range [0, 600, 700]) = true ∧
    findCaller (sortDefsDesc [c1OutDef, c1InnDef]) (parse_scip_range [0, 600, 700]) =
      some c1InnDef ∧
    (ingest_and_build_graph [c1Doc]).nodes.map (fun n => (n.id, n.callees)) =
      [("inn", ["callee"]), ("out", [])] := by decide

/-- C1 (amended): Pass 1 sorts each document's definitions by the size
metric `(end_line - start_line) * 1000 + (end_col - start_col)` descending
(the sorted list is a size-descending permutation of the collected
definitions) and Pass 2 resolves a reference to the first definition in
that order whose range contains it; consequently, when exactly two
definitions contain a reference, one strictly containing the other, the
resolved caller is the one with the strictly larger size metric — the
outer definition precisely when its metric exceeds the inner's, which a
single-line inner span of 1000 or more columns can defeat. -/
theorem sort_desc_first_containing_resolution (defs : List DefinitionInfo) (r : SourceRange)
    (d1 d2 : DefinitionInfo) (h1 : d1 ∈ defs) (h2 : d2 ∈ defs)
    (hc1 : d1.range.contains r = true) (hc2 : d2.range.contains r = true)
    (houter : d1.range.contains d2.range = true) (hinner : d2.range.contains d1.range = false)
    (honly : ∀ d ∈ defs, d.range.contains r = true → d = d1 ∨ d = d2)
    (hsize : defSize d2 < defSize d1) :
    List.Sorted defSizeGE (sortDefsDesc defs) ∧
    (sortDefsDesc defs).Perm defs ∧
    findCaller (sortDefsDesc defs) r = some d1 := by
  have hperm : (sortDefsDesc defs).Perm defs := List.perm_insertionSort defSizeGE defs
  have hsorted : List.Sorted defSizeGE (sortDefsDesc defs) :=
    List.sorted_insertionSort defSizeGE defs
  refine ⟨hsorted, hperm, ?_⟩
  exact find_first_of_two_containing r d1 d2 hc1 hsize (sortDefsDesc defs) hsorted
    (hperm.mem_iff.mpr h1)
    (fun d hd hc => honly d (hperm.mem_iff.mp hd) hc)

/-- C1 witness: with ordinary column spans the outer definition's metric
dominates and it is indeed resolved first. -/
theorem sort_desc_first_containing_resolution_witness :
    List.Sorted defSizeGE (sortDefsDesc [c1WInn, c1WOut]) ∧
    (sortDefsDesc [c1WInn, c1WOut]).Perm [c1WInn, c1WOut] ∧
    findCaller (sortDefsDesc [c1WInn, c1WOut]) (parse_scip_range [1, 10, 1, 20]) =
      some c1WOut :=
  sort_desc_first_containing_resolution [c1WInn, c1WOut] (parse_scip_range [1, 10, 1, 20])
    c1WOut c1WInn (by decide) (by decide) (by decide) (by decide) (by decide) (by decide)
    (by decide) (by decide)

/-- `findNodeIdx` misses exactly when no node carries the symbol. -/
theorem findNodeIdx_eq_none_iff (l : List CallGraphNode) (s : String) :
    findNodeIdx l s = none ↔ s ∉ nodeIds l := by
  induction l with
  | nil => simp [findNodeIdx, nodeIds]
  | cons n ns ih =>
      by_cases h : n.id = s
      · simp [findNodeIdx, h, nodeIds]
      · simp only [findNodeIdx, if_neg h, Option.map_eq_none', ih, nodeIds, List.map_cons,
          List.mem_cons]
        constructor
        · rintro hns (he | hm)
          · exact h he.symm
          · exact hns hm
        · intro hall hm
          exact hall (Or.inr hm)

/-- A `findNodeIdx` hit points at a node carrying the looked-up symbol. -/
theorem findNodeIdx_eq_some (l : List CallGraphNode) (s : String) (i : Nat)
    (h : findNodeIdx l s = some i) : ∃ hi : i < l.length, (l.get ⟨i, hi⟩).id = s := by
  induction l generalizing i with
  | nil => cases h
  | cons n ns ih =>
      by_cases hn : n.id = s
      · simp only [findNodeIdx, if_pos hn, Option.some.injEq] at h
        subst h
        exact ⟨Nat.succ_pos _, hn⟩
      · simp only [findNodeIdx, if_neg hn, Option.map_eq_some'] at h
        obtain ⟨j, hj, rfl⟩ := h
        obtain ⟨hlt, hid⟩ := ih j hj
        exact ⟨Nat.succ_lt_succ hlt, hid⟩

/-- Membership after a point update: an element of `modifyAt l i f` is an
old element or the image of the element at position `i`. -/
theorem mem_modifyAt (l : List CallGraphNode) (i : Nat) (f : CallGraphNode → CallGraphNode)
    (n : CallGraphNode) (h : n ∈ modifyAt l i f) :
    n ∈ l ∨ ∃ hi : i < l.length, n = f (l.get ⟨i, hi⟩) := by
  induction l generalizing i with
  | nil => simp [modifyAt] at h
  | cons x xs ih =>
      cases i with
      | zero =>
          simp only [modifyAt] at h
          rcases List.mem_cons.mp h with he | hm
          · exact Or.inr ⟨Nat.succ_pos _, he⟩
          · exact Or.inl (List.mem_cons_of_mem _ hm)
      | succ j =>
          simp only [modifyAt] at h
          rcases List.mem_cons.mp h with he | hm
          · exact Or.inl (he ▸ List.mem_cons_self _ _)
          · rcases ih j hm with h1 | ⟨hlt, he⟩
            · exact Or.inl (List.mem_cons_of_mem _ h1)
            · exact Or.inr ⟨Nat.succ_lt_succ hlt, he⟩

/-- A point update by an id-preserving function keeps the id list. -/
theorem nodeIds_modifyAt (l : List CallGraphNode) (i : Nat)
    (f : CallGraphNode → CallGraphNode) (hf : ∀ m, (f m).id = m.id) :
    nodeIds (modifyAt l i f) = nodeIds l := by
  induction l generalizing i with
  | nil => rfl
  | cons x xs ih =>
      cases i with
      | zero => simp [modifyAt, nodeIds, hf]
      | succ j =>
          simp only [modifyAt, nodeIds, List.map_cons]
          rw [show List.map (fun n => n.id) (modifyAt xs j f) = nodeIds (modifyAt xs j f) from rfl,
            ih j]
          rfl

/-- Recording an edge never changes which nodes exist. -/
theorem nodeIds_addEdge (l : List CallGraphNode) (c k : String) :
    nodeIds (addEdge l c k) = nodeIds l := by
  unfold addEdge
  cases hf : findNodeIdx l c with
  | none => rfl
  | some i =>
      dsimp only
      by_cases hck : c ≠ k
      · rw [if_pos hck]
        apply nodeIds_modifyAt
        intro m
        by_cases hk : k ∈ m.callees <;> simp [hk]
      · rw [if_neg hck]

/-- Recording an edge preserves the no-self-edge / no-duplicate invariant
on every node: the guard suppresses self-references and the containment
check suppresses duplicates. -/
theorem addEdge_inv (l : List CallGraphNode) (c k : String)
    (hinv : ∀ n ∈ l, NodeInv n) : ∀ n ∈ addEdge l c k, NodeInv n := by
  intro n hn
  unfold addEdge at hn
  cases hf : findNodeIdx l c with
  | none => rw [hf] at hn; exact hinv n hn
  | some i =>
      rw [hf] at hn
      dsimp only at hn
      by_cases hck : c ≠ k
      · rw [if_pos hck] at hn
        rcases mem_modifyAt _ _ _ _ hn with hm | ⟨hlt, he⟩
        · exact hinv n hm
        · obtain ⟨hlt2, hid⟩ := findNodeIdx_eq_some l c i hf
          have hminv : NodeInv (l.get ⟨i, hlt⟩) := hinv _ (l.get_mem _ _)
          by_cases hk : k ∈ (l.get ⟨i, hlt⟩).callees
          · rw [he]
            simp only [if_pos hk]
            exact hminv
          · rw [he]
            simp only [if_neg hk]
            constructor
            · simp only [List.mem_append, List.mem_singleton]
              rintro (h | h)
              · exact hminv.1 h
              · rw [hid] at h
                exact hck h
            · rw [List.nodup_append]
              refine ⟨hminv.2, List.nodup_singleton _, ?_⟩
              intro a ha hb
              rw [List.mem_singleton] at hb
              subst hb
              exact hk ha
      · rw [if_neg hck] at hn
        exact hinv n hn

/-- Pass 2's per-occurrence step never changes which nodes exist. -/
theorem nodeIds_pass2Occ (defs : List DefinitionInfo) (nodes : List CallGraphNode)
    (occ : Occurrence) : nodeIds (pass2Occ defs nodes occ) = nodeIds nodes := by
  unfold pass2Occ
  split
  · split
    · exact nodeIds_addEdge _ _ _
    · rfl
  · rfl

/-- Pass 2's per-occurrence step preserves the node invariant. -/
theorem pass2Occ_inv (defs : List DefinitionInfo) (nodes : List CallGraphNode)
    (occ : Occurrence) (hinv : ∀ n ∈ nodes, NodeInv n) :
    ∀ n ∈ pass2Occ defs nodes occ, NodeInv n := by
  unfold pass2Occ
  split
  · split
    · exact addEdge_inv _ _ _ hinv
    · exact hinv
  · exact hinv

/-- Pass 2 over one document never changes which nodes exist. -/
theorem nodeIds_pass2Doc (dbf : String → List DefinitionInfo) (nodes : List CallGraphNode)
    (doc : Document) : nodeIds (pass2Doc dbf nodes doc) = nodeIds nodes := by
  unfold pass2Doc
  induction doc.occurrences generalizing nodes with
  | nil => rfl
  | cons occ occs ih =>
      rw [List.foldl_cons, ih, nodeIds_pass2Occ]

/-- Pass 2 over one document preserves the node invariant. -/
theorem pass2Doc_inv (dbf : String → List DefinitionInfo) (nodes : List CallGraphNode)
    (doc : Document) (hinv : ∀ n ∈ nodes, NodeInv n) :
    ∀ n ∈ pass2Doc dbf nodes doc, NodeInv n := by
  unfold pass2Doc
  induction doc.occurrences generalizing nodes with
  | nil => exact hinv
  | cons occ occs ih =>
      rw [List.foldl_cons]
      exact ih _ (pass2Occ_inv _ _ _ hinv)

/-- The whole of Pass 2 never changes which nodes exist. -/
theorem nodeIds_pass2 (docs : List Document) (dbf : String → List DefinitionInfo)
    (nodes : List CallGraphNode) :
    nodeIds (docs.foldl (pass2Doc dbf) nodes) = nodeIds nodes := by
  induction docs generalizing nodes with
  | nil => rfl
  | cons doc docs ih =>
      rw [List.foldl_cons, ih, nodeIds_pass2Doc]

/-- The whole of Pass 2 preserves the node invariant. -/
theorem pass2_inv (docs : List Document) (dbf : String → List DefinitionInfo)
    (nodes : List CallGraphNode) (hinv : ∀ n ∈ nodes, NodeInv n) :
    ∀ n ∈ docs.foldl (pass2Doc dbf) nodes, NodeInv n := by
  induction docs generalizing nodes with
  | nil => exact hinv
  | cons doc docs ih =>
      rw [List.foldl_cons]
      exact ih _ (pass2Doc_inv _ _ _ hinv)

/-- The nodes present after a get-or-create: the old ones, plus the symbol
when it was new. -/
theorem nodeIds_ensureNode_mem (l : List CallGraphNode) (s t : String) :
    t ∈ nodeIds (ensureNode l s) ↔ t ∈ nodeIds l ∨ t = s := by
  unfold ensureNode
  cases hf : findNodeIdx l s with
  | some i =>
      obtain ⟨hlt, hid⟩ := findNodeIdx_eq_some l s i hf
      constructor
      · exact Or.inl
      · rintro (h | rfl)
        · exact h
        · exact hid ▸ List.mem_map_of_mem _ (l.get_mem _ _)
  | none =>
      simp [nodeIds, List.mem_append]

/-- A get-or-create keeps node ids duplicate-free. -/
theorem nodeIds_ensureNode_nodup (l : List CallGraphNode) (s : String)
    (h : (nodeIds l).Nodup) : (nodeIds (ensureNode l s)).Nodup := by
  unfold ensureNode
  cases hf : findNodeIdx l s with
  | some i => exact h
  | none =>
      have hs : s ∉ nodeIds l := (findNodeIdx_eq_none_iff l s).mp hf
      simp only [nodeIds, List.map_append, List.map_cons, List.map_nil]
      rw [List.nodup_append]
      refine ⟨h, List.nodup_singleton _, ?_⟩
      intro a ha hb
      rw [List.mem_singleton] at hb
      subst hb
      exact hs ha

/-- A get-or-create only ever adds a node with an empty callee list. -/
theorem ensureNode_callees (l : List CallGraphNode) (s : String)
    (h : ∀ n ∈ l, n.callees = []) : ∀ n ∈ ensureNode l s, n.callees = [] := by
  unfold ensureNode
  cases findNodeIdx l s with
  | some i => exact h
  | none =>
      intro n hn
      rcases List.mem_append.mp hn with hm | hm
      · exact h n hm
      · rw [List.mem_singleton] at hm
        rw [hm]

/-- The nodes present after scanning a document's occurrences: the old ones
plus one per non-empty definition symbol of the document. -/
theorem pass1_fold_occs_mem (occs : List Occurrence)
    (acc : List CallGraphNode × List DefinitionInfo) (t : String) :
    t ∈ nodeIds ((occs.foldl pass1Occ acc).1) ↔
      t ∈ nodeIds acc.1 ∨
        ∃ occ ∈ occs, is_definition occ = true ∧ occ.symbol ≠ "" ∧ occ.symbol = t := by
  induction occs generalizing acc with
  | nil => simp
  | cons occ occs ih =>
      rw [List.foldl_cons, ih]
      by_cases hc : (is_definition occ ∧ occ.symbol ≠ "")
      · have hstep : (pass1Occ acc occ).1 = ensureNode acc.1 occ.symbol := by
          unfold pass1Occ
          rw [if_pos hc]
        rw [hstep, nodeIds_ensureNode_mem]
        simp only [List.mem_cons, exists_eq_or_imp]
        obtain ⟨hd, hs⟩ := hc
        constructor
        · rintro ((h | rfl) | h)
          · exact Or.inl h
          · exact Or.inr (Or.inl ⟨hd, hs, rfl⟩)
          · exact Or.inr (Or.inr h)
        · rintro (h | ⟨_, _, rfl⟩ | h)
          · exact Or.inl (Or.inl h)
          · exact Or.inl (Or.inr rfl)
          · exact Or.inr h
      · have hstep : (pass1Occ acc occ).1 = acc.1 := by
          unfold pass1Occ
          rw [if_neg hc]
        rw [hstep]
        simp only [List.mem_cons, exists_eq_or_imp]
        constructor
        · rintro (h | h)
          · exact Or.inl h
          · exact Or.inr (Or.inr h)
        · rintro (h | ⟨hd, hs, _⟩ | h)
          · exact Or.inl h
          · exact absurd ⟨hd, hs⟩ hc
          · exact Or.inr h

/-- Scanning a document's occurrences keeps node ids duplicate-free. -/
theorem pass1_fold_occs_nodup (occs : List Occurrence)
    (acc : List CallGraphNode × List DefinitionInfo)
    (h : (nodeIds acc.1).Nodup) : (nodeIds ((occs.foldl pass1Occ acc).1)).Nodup := by
  induction occs generalizing acc with
  | nil => exact h
  | cons occ occs ih =>
      rw [List.foldl_cons]
      refine ih _ ?_
      unfold pass1Occ
      split
      · exact nodeIds_ensureNode_nodup _ _ h
      · exact h

/-- Scanning a document's occurrences only creates empty-callee nodes. -/
theorem pass1_fold_occs_callees (occs : List Occurrence)
    (acc : List CallGraphNode × List DefinitionInfo)
    (h : ∀ n ∈ acc.1, n.callees = []) :
    ∀ n ∈ (occs.foldl pass1Occ acc).1, n.callees = [] := by
  induction occs generalizing acc with
  | nil => exact h
  | cons occ occs ih =>
      rw [List.foldl_cons]
      refine ih _ ?_
      unfold pass1Occ
      split
      · exact ensureNode_callees _ _ h
      · exact h

/-- The nodes present after Pass 1 on a document suffix: the old ones plus
one per non-empty definition symbol occurring in those documents. -/
theorem pass1_foldl_mem (docs : List Document)
    (acc : List CallGraphNode × (String → List DefinitionInfo)) (t : String) :
    t ∈ nodeIds ((docs.foldl pass1Step acc).1) ↔
      t ∈ nodeIds acc.1 ∨
        ∃ doc ∈ docs, ∃ occ ∈ doc.occurrences,
          is_definition occ = true ∧ occ.symbol ≠ "" ∧ occ.symbol = t := by
  induction docs generalizing acc with
  | nil => simp
  | cons doc docs ih =>
      rw [List.foldl_cons, ih]
      have hstep : t ∈ nodeIds ((pass1Step acc doc).1) ↔
          t ∈ nodeIds acc.1 ∨
            ∃ occ ∈ doc.occurrences,
              is_definition occ = true ∧ occ.symbol ≠ "" ∧ occ.symbol = t :=
        pass1_fold_occs_mem doc.occurrences (acc.1, []) t
      rw [hstep]
      simp only [List.mem_cons, exists_eq_or_imp]
      exact or_assoc

/-- Pass 1 keeps node ids duplicate-free. -/
theorem pass1_foldl_nodup (docs : List Document)
    (acc : List CallGraphNode × (String → List DefinitionInfo))
    (h : (nodeIds acc.1).Nodup) : (nodeIds ((docs.foldl pass1Step acc).1)).Nodup := by
  induction docs generalizing acc with
  | nil => exact h
  | cons doc docs ih =>
      rw [List.foldl_cons]
      exact ih _ (pass1_fold_occs_nodup doc.occurrences (acc.1, []) h)

/-- Pass 1 produces only empty-callee nodes. -/
theorem pass1_foldl_callees (docs : List Document)
    (acc : List CallGraphNode × (String → List DefinitionInfo))
    (h : ∀ n ∈ acc.1, n.callees = []) :
    ∀ n ∈ (docs.foldl pass1Step acc).1, n.callees = [] := by
  induction docs generalizing acc with
  | nil => exact h
  | cons doc docs ih =>
      rw [List.foldl_cons]
      exact ih _ (pass1_fold_occs_callees doc.occurrences (acc.1, []) h)

/-- C2: in every ingested graph, no node lists itself as a callee (the
`caller != callee` guard) and no callee id repeats (the containment check
before each push). -/
theorem no_self_edges_and_dedup (documents : List Document) (n : CallGraphNode)
    (hn : n ∈ (ingest_and_build_graph documents).nodes) :
    n.id ∉ n.callees ∧ n.callees.Nodup := by
  have hx : n ∈ documents.foldl (pass2Doc (pass1 documents).2) (pass1 documents).1 := by
    have hrfl : (ingest_and_build_graph documents).nodes =
        sortNodesById (documents.foldl (pass2Doc (pass1 documents).2) (pass1 documents).1) :=
      rfl
    rw [hrfl, sortNodesById, List.mem_insertionSort] at hn
    exact hn
  have hinit : ∀ m ∈ (pass1 documents).1, NodeInv m := by
    intro m hm
    have hc : m.callees = [] :=
      pass1_foldl_callees documents ([], fun _ => []) (by intro x hx2; cases hx2) m hm
    exact ⟨by simp [hc], by rw [hc]; exact List.nodup_nil⟩
  exact pass2_inv documents _ _ hinit n hx

/-- C2 witness: the ingested node for the definition carries exactly one
copy of the callee and not itself, and satisfies the invariant. -/
theorem no_self_edges_and_dedup_witness :
    ("D1" : String) ∉ (["T"] : List String) ∧ (["T"] : List String).Nodup :=
  no_self_edges_and_dedup [c2Doc]
    { id := "D1", callees := ["T"], label := some "D1" } (by decide)

/-- C8: the ingested node list is strictly ascending by id (so there is
exactly one node per id), and the ids are exactly the non-empty symbols of
definition occurrences anywhere in the index — a later definition of the
same symbol reuses the first node instead of adding or replacing one. -/
theorem one_node_per_def_symbol_sorted (documents : List Document) :
    List.Pairwise (fun a b : CallGraphNode => strLe a.id b.id = true ∧ a.id ≠ b.id)
      (ingest_and_build_graph documents).nodes ∧
    ∀ s : String,
      ((∃ n ∈ (ingest_and_build_graph documents).nodes, n.id = s) ↔
        ∃ doc ∈ documents, ∃ occ ∈ doc.occurrences,
          is_definition occ = true ∧ occ.symbol ≠ "" ∧ occ.symbol = s) := by
  have hX : (ingest_and_build_graph documents).nodes =
      sortNodesById (documents.foldl (pass2Doc (pass1 documents).2) (pass1 documents).1) :=
    rfl
  set X := documents.foldl (pass2Doc (pass1 documents).2) (pass1 documents).1 with hXdef
  have hids : nodeIds X = nodeIds (pass1 documents).1 := nodeIds_pass2 _ _ _
  have hnodup1 : (nodeIds (pass1 documents).1).Nodup :=
    pass1_foldl_nodup documents ([], fun _ => []) List.nodup_nil
  have hnodupX : (nodeIds X).Nodup := hids ▸ hnodup1
  have hperm : (sortNodesById X).Perm X := List.perm_insertionSort nodeIdLE X
  have hpermIds : (nodeIds (sortNodesById X)).Perm (nodeIds X) := hperm.map _
  have hnodupS : (nodeIds (sortNodesById X)).Nodup := hpermIds.nodup_iff.mpr hnodupX
  have hsorted : List.Sorted nodeIdLE (sortNodesById X) := List.sorted_insertionSort nodeIdLE X
  constructor
  · rw [hX]
    have hne : List.Pairwise (fun a b : CallGraphNode => a.id ≠ b.id) (sortNodesById X) :=
      List.pairwise_map.mp hnodupS
    exact hsorted.and hne
  · intro s
    rw [hX]
    have hmm : (∃ n ∈ sortNodesById X, n.id = s) ↔ s ∈ nodeIds (sortNodesById X) := by
      simp [nodeIds]
    rw [hmm, hpermIds.mem_iff, hids]
    have h2 := pass1_foldl_mem documents ([], fun _ => []) s
    simp only [nodeIds, List.map_nil, List.not_mem_nil, false_or] at h2
    exact h2

end Tracecraft
